import Mathlib

/-!
Shallow embedding of `PROG2400_FinalProject/Auction.py`.

The Python class `Auction` keeps:
  * `min_bid : int` (but it becomes `-inf` after a restart with no bids,
    since `restart_auction` sets `min_bid = current_max + 1` and the unset
    sentinel for `current_max` is `-float('inf')`); we model amounts that
    may be the `-inf` sentinel as `WithBot ℤ` (`⊥` = `-inf`);
  * `frequency : defaultdict(list)` mapping bid amounts to the list of
    bidder ids, insertion-ordered; modelled as an association list whose
    keys are `WithBot ℤ` (the key `⊥` can be created by `close_auction`
    through the `defaultdict` read `self.frequency[self.current_max]`,
    which inserts an empty list when the key is absent);
  * `current_max : WithBot ℤ` and `current_max_count : ℕ`.

`close_auction` can raise `IndexError` (indexing `[0]` on an empty list);
we model its result as `Except Unit (Option String)` paired with the state
after the call (the `defaultdict` access mutates `frequency` even when the
subsequent indexing raises).
-/

/-- Keys of an association list, in insertion order. -/
def keysOf (m : List (WithBot ℤ × List String)) : List (WithBot ℤ) :=
  m.map (·.1)

/-- Plain association-list lookup (`k in m` view of a Python dict). -/
def dlookup (m : List (WithBot ℤ × List String)) (k : WithBot ℤ) :
    Option (List String) :=
  match m with
  | [] => none
  | (k', l) :: rest => if k' = k then some l else dlookup rest k

/-- `self.frequency[bid_amount].append(bidder_id)` on a `defaultdict(list)`:
append to the existing list, or create the key (at the end, Python dicts
preserve key insertion order) with a singleton list. -/
def appendBid (m : List (WithBot ℤ × List String)) (k : WithBot ℤ)
    (b : String) : List (WithBot ℤ × List String) :=
  match m with
  | [] => [(k, [b])]
  | (k', l) :: rest =>
      if k' = k then (k', l ++ [b]) :: rest else (k', l) :: appendBid rest k b

/-- `self.frequency[k]` on a `defaultdict(list)`: return the list stored at
`k`, inserting an empty list (and hence the key) when `k` is absent.
Returns the value together with the possibly-mutated dictionary. -/
def dget (m : List (WithBot ℤ × List String)) (k : WithBot ℤ) :
    List String × List (WithBot ℤ × List String) :=
  match m with
  | [] => ([], [(k, [])])
  | (k', l) :: rest =>
      if k' = k then (l, (k', l) :: rest)
      else
        let r := dget rest k
        (r.1, (k', l) :: r.2)

/-- State of the Python `Auction` object. -/
structure Auction where
  min_bid : WithBot ℤ
  frequency : List (WithBot ℤ × List String)
  current_max : WithBot ℤ
  current_max_count : ℕ
deriving DecidableEq, Repr

/-- `Auction.__init__(min_bid)`. -/
def Auction.init (m : ℤ) : Auction :=
  { min_bid := (m : WithBot ℤ), frequency := [], current_max := ⊥
    current_max_count := 0 }

/-- `Auction.place_bid(bidder_id, bid_amount)`. -/
def Auction.place_bid (s : Auction) (bidder_id : String) (bid_amount : ℤ) :
    Auction :=
  if (bid_amount : WithBot ℤ) < s.min_bid then s
  else
    let freq := appendBid s.frequency (bid_amount : WithBot ℤ) bidder_id
    if s.current_max < (bid_amount : WithBot ℤ) then
      { s with frequency := freq, current_max := (bid_amount : WithBot ℤ),
               current_max_count := 1 }
    else if (bid_amount : WithBot ℤ) = s.current_max then
      { s with frequency := freq,
               current_max_count := s.current_max_count + 1 }
    else
      { s with frequency := freq }

/-- `Auction.close_auction(tie_breaker_first_bid)`: the returned value
(`Except.error ()` models the `IndexError` raised by
`self.frequency[self.current_max][0]` on an empty list; `Except.ok none`
models returning `None`) together with the state after the call. -/
def Auction.close_auction (s : Auction) (tie_breaker_first_bid : Bool) :
    Except Unit (Option String) × Auction :=
  if s.current_max_count = 1 ∨ tie_breaker_first_bid = true then
    let r := dget s.frequency s.current_max
    match r.1 with
    | [] => (Except.error (), { s with frequency := r.2 })
    | w :: _ => (Except.ok (some w), { s with frequency := r.2 })
  else
    (Except.ok none, s)

/-- `Auction.restart_auction()`. -/
def Auction.restart_auction (s : Auction) : Auction :=
  { min_bid := s.current_max + 1, frequency := [], current_max := ⊥
    current_max_count := 0 }

/-- Process a list of `(bidder_id, bid_amount)` calls left to right. -/
def Auction.processBids (s : Auction) (bids : List (String × ℤ)) : Auction :=
  bids.foldl (fun a p => a.place_bid p.1 p.2) s

/-- Maximum of a list of integer amounts in `WithBot ℤ` (`⊥` when empty),
folded from the left so that appending a bid is a single `max`. -/
def listMax (l : List ℤ) : WithBot ℤ :=
  l.foldl (fun m x => max m (x : WithBot ℤ)) ⊥

/-- States reachable from construction by any sequence of the three
operations (a `close_auction` call that raises `IndexError` still leaves
the mutated object behind, so it is a step). -/
inductive Reachable : Auction → Prop
  | init (m : ℤ) : Reachable (Auction.init m)
  | bid (s : Auction) (b : String) (a : ℤ) :
      Reachable s → Reachable (s.place_bid b a)
  | close (s : Auction) (t : Bool) :
      Reachable s → Reachable (s.close_auction t).2
  | restart (s : Auction) :
      Reachable s → Reachable s.restart_auction

/-- States reachable by sequences in which every `close_auction` call
returns normally (does not raise `IndexError`). -/
inductive ReachableSafe : Auction → Prop
  | init (m : ℤ) : ReachableSafe (Auction.init m)
  | bid (s : Auction) (b : String) (a : ℤ) :
      ReachableSafe s → ReachableSafe (s.place_bid b a)
  | close (s : Auction) (t : Bool) :
      ReachableSafe s → (s.close_auction t).1 ≠ Except.error () →
      ReachableSafe (s.close_auction t).2
  | restart (s : Auction) :
      ReachableSafe s → ReachableSafe s.restart_auction

theorem dlookup_appendBid_self (m : List (WithBot ℤ × List String))
    (k : WithBot ℤ) (b : String) :
    dlookup (appendBid m k b) k = some ((dlookup m k).getD [] ++ [b]) := by
  induction m with
  | nil => simp [appendBid, dlookup]
  | cons p rest ih =>
    obtain ⟨k', l⟩ := p
    by_cases h : k' = k <;> simp [appendBid, dlookup, h, ih]

theorem dlookup_appendBid_ne (m : List (WithBot ℤ × List String))
    (k k' : WithBot ℤ) (b : String) (h : k ≠ k') :
    dlookup (appendBid m k b) k' = dlookup m k' := by
  induction m with
  | nil => simp [appendBid, dlookup, h]
  | cons p rest ih =>
    obtain ⟨k'', l⟩ := p
    by_cases h2 : k'' = k <;> by_cases h3 : k'' = k' <;>
      simp_all [appendBid, dlookup]

theorem mem_keysOf_appendBid (m : List (WithBot ℤ × List String))
    (k k' : WithBot ℤ) (b : String) :
    k' ∈ keysOf (appendBid m k b) ↔ k' ∈ keysOf m ∨ k' = k := by
  induction m with
  | nil => simp [appendBid, keysOf, eq_comm]
  | cons p rest ih =>
    obtain ⟨k'', l⟩ := p
    by_cases h : k'' = k
    · simp_all [appendBid, keysOf]
    · simp_all [appendBid, keysOf]
      tauto

theorem dlookup_eq_none_iff (m : List (WithBot ℤ × List String))
    (k : WithBot ℤ) : dlookup m k = none ↔ k ∉ keysOf m := by
  induction m with
  | nil => simp [dlookup, keysOf]
  | cons p rest ih =>
    obtain ⟨k', l⟩ := p
    by_cases h : k' = k <;> simp_all [dlookup, keysOf, eq_comm]

theorem dget_of_dlookup_some (m : List (WithBot ℤ × List String))
    (k : WithBot ℤ) (l : List String) (h : dlookup m k = some l) :
    dget m k = (l, m) := by
  induction m with
  | nil => simp [dlookup] at h
  | cons p rest ih =>
    obtain ⟨k', l'⟩ := p
    by_cases h2 : k' = k <;> simp_all [dlookup, dget]

theorem dget_of_dlookup_none (m : List (WithBot ℤ × List String))
    (k : WithBot ℤ) (h : dlookup m k = none) :
    dget m k = ([], m ++ [(k, [])]) := by
  induction m with
  | nil => simp [dget]
  | cons p rest ih =>
    obtain ⟨k', l'⟩ := p
    by_cases h2 : k' = k <;> simp_all [dlookup, dget]

/-- A `close_auction` call that does not raise leaves the state unchanged
(the `else` branch touches nothing, and in the winner branch a normal
return means the key was present, so the `defaultdict` read did not insert
anything). -/
theorem close_auction_no_error (s : Auction) (t : Bool)
    (h : (s.close_auction t).1 ≠ Except.error ()) :
    (s.close_auction t).2 = s := by
  unfold Auction.close_auction at *
  by_cases hc : s.current_max_count = 1 ∨ t = true
  · simp only [if_pos hc] at h ⊢
    cases hlk : dlookup s.frequency s.current_max with
    | none =>
        rw [dget_of_dlookup_none _ _ hlk] at h
        simp at h
    | some l =>
        rw [dget_of_dlookup_some _ _ _ hlk] at h ⊢
        cases l with
        | nil => simp at h
        | cons w rest => rfl
  · simp [if_neg hc]

theorem place_bid_min_bid (s : Auction) (b : String) (a : ℤ) :
    (s.place_bid b a).min_bid = s.min_bid := by
  unfold Auction.place_bid
  split
  · rfl
  · dsimp only
    split
    · rfl
    · split <;> rfl

theorem processBids_min_bid (s : Auction) (bids : List (String × ℤ)) :
    (s.processBids bids).min_bid = s.min_bid := by
  induction bids generalizing s with
  | nil => rfl
  | cons p rest ih =>
      show (Auction.processBids (s.place_bid p.1 p.2) rest).min_bid = _
      rw [ih, place_bid_min_bid]

theorem listMax_append (l : List ℤ) (a : ℤ) :
    listMax (l ++ [a]) = max (listMax l) (a : WithBot ℤ) := by
  simp [listMax, List.foldl_append]

theorem le_foldl_max (l : List ℤ) (i : WithBot ℤ) :
    i ≤ l.foldl (fun m x => max m (x : WithBot ℤ)) i := by
  induction l generalizing i with
  | nil => simp
  | cons a l ih => exact le_trans (le_max_left _ _) (ih _)

theorem mem_le_listMax (l : List ℤ) (a : ℤ) (h : a ∈ l) :
    (a : WithBot ℤ) ≤ listMax l := by
  unfold listMax
  generalize (⊥ : WithBot ℤ) = i
  induction l generalizing i with
  | nil => simp at h
  | cons b l ih =>
      rcases List.mem_cons.mp h with rfl | h2
      · exact le_trans (le_max_right _ _) (le_foldl_max _ _)
      · exact ih h2 _

theorem place_bid_reject (s : Auction) (b : String) (a : ℤ)
    (h : (a : WithBot ℤ) < s.min_bid) : s.place_bid b a = s := by
  unfold Auction.place_bid
  rw [if_pos h]

theorem place_bid_accept_gt (s : Auction) (b : String) (a : ℤ)
    (h1 : ¬ ((a : WithBot ℤ) < s.min_bid))
    (h2 : s.current_max < (a : WithBot ℤ)) :
    s.place_bid b a =
      { s with frequency := appendBid s.frequency (a : WithBot ℤ) b,
               current_max := (a : WithBot ℤ), current_max_count := 1 } := by
  unfold Auction.place_bid
  rw [if_neg h1]
  dsimp only
  rw [if_pos h2]

theorem place_bid_accept_eq (s : Auction) (b : String) (a : ℤ)
    (h1 : ¬ ((a : WithBot ℤ) < s.min_bid))
    (h2 : ¬ s.current_max < (a : WithBot ℤ))
    (h3 : (a : WithBot ℤ) = s.current_max) :
    s.place_bid b a =
      { s with frequency := appendBid s.frequency (a : WithBot ℤ) b,
               current_max_count := s.current_max_count + 1 } := by
  unfold Auction.place_bid
  rw [if_neg h1]
  dsimp only
  rw [if_neg h2, if_pos h3]

theorem place_bid_accept_lt (s : Auction) (b : String) (a : ℤ)
    (h1 : ¬ ((a : WithBot ℤ) < s.min_bid))
    (h2 : ¬ s.current_max < (a : WithBot ℤ))
    (h3 : ¬ (a : WithBot ℤ) = s.current_max) :
    s.place_bid b a =
      { s with frequency := appendBid s.frequency (a : WithBot ℤ) b } := by
  unfold Auction.place_bid
  rw [if_neg h1]
  dsimp only
  rw [if_neg h2, if_neg h3]

/-- After processing any sequence of bids that are all at or above the
initial floor, `current_max` is the maximum of the amounts and
`current_max_count` counts the bids at that maximum. -/
theorem processBids_spec (m : ℤ) (bids : List (String × ℤ))
    (h : ∀ p ∈ bids, m ≤ p.2) :
    ((Auction.init m).processBids bids).current_max
        = listMax (bids.map (·.2)) ∧
    ((Auction.init m).processBids bids).current_max_count
        = (bids.map (·.2)).countP
            (fun a : ℤ => decide ((a : WithBot ℤ) = listMax (bids.map (·.2)))) := by
  induction bids using List.reverseRecOn with
  | nil => simp [Auction.processBids, Auction.init, listMax]
  | append_singleton l p ih =>
    have hmem : ∀ q ∈ l, m ≤ q.2 := fun q hq => h q (List.mem_append_left _ hq)
    obtain ⟨hmax, hcnt⟩ := ih hmem
    have hp : m ≤ p.2 := h p (List.mem_append_right _ (List.mem_singleton.mpr rfl))
    have hfold : (Auction.init m).processBids (l ++ [p])
        = ((Auction.init m).processBids l).place_bid p.1 p.2 := by
      simp [Auction.processBids, List.foldl_append]
    have hmin : ((Auction.init m).processBids l).min_bid
        = ((m : ℤ) : WithBot ℤ) := processBids_min_bid _ _
    set s := (Auction.init m).processBids l with hs
    have hnr : ¬ ((p.2 : WithBot ℤ) < s.min_bid) := by
      rw [hmin]
      exact not_lt.mpr (WithBot.coe_le_coe.mpr hp)
    have hbound : ∀ a : ℤ, a ∈ l.map (fun x => x.2) →
        (a : WithBot ℤ) ≤ s.current_max := by
      intro a ha
      rw [hmax]
      exact mem_le_listMax _ a ha
    simp only [← hmax] at hcnt
    simp only [List.map_append, List.map_cons, List.map_nil, listMax_append,
      ← hmax, hfold]
    by_cases hgt : s.current_max < (p.2 : WithBot ℤ)
    · rw [place_bid_accept_gt s p.1 p.2 hnr hgt]
      refine ⟨by simp [max_eq_right (le_of_lt hgt)], ?_⟩
      simp only [max_eq_right (le_of_lt hgt), List.countP_append]
      have h0 : (l.map (fun x => x.2)).countP
          (fun a : ℤ => decide ((a : WithBot ℤ) = (p.2 : WithBot ℤ))) = 0 := by
        rw [List.countP_eq_zero]
        intro a ha
        simp only [decide_eq_true_eq]
        intro he
        exact absurd hgt (not_lt.mpr (he ▸ hbound a ha))
      rw [h0]
      simp [List.countP_cons]
    · have hle : (p.2 : WithBot ℤ) ≤ s.current_max := not_lt.mp hgt
      by_cases heq : (p.2 : WithBot ℤ) = s.current_max
      · rw [place_bid_accept_eq s p.1 p.2 hnr hgt heq]
        refine ⟨by simp [max_eq_left hle], ?_⟩
        simp only [max_eq_left hle, List.countP_append]
        simp [hcnt, List.countP_cons, heq]
      · rw [place_bid_accept_lt s p.1 p.2 hnr hgt heq]
        refine ⟨by simp [max_eq_left hle], ?_⟩
        simp only [max_eq_left hle, List.countP_append]
        simp [hcnt, List.countP_cons, heq]

/-- The data-model invariant maintained by the ledger (stated over the
embedding): keys are at or above the floor, keys never exceed
`current_max`, the unset sentinel goes with an empty ledger, and when the
maximum is set its bidder list is present, nonempty and of length
`current_max_count`. -/
def LedgerInv (s : Auction) : Prop :=
  (∀ k ∈ keysOf s.frequency, s.min_bid ≤ k) ∧
  (∀ k ∈ keysOf s.frequency, k ≤ s.current_max) ∧
  (s.current_max = ⊥ → s.frequency = [] ∧ s.current_max_count = 0) ∧
  (s.current_max ≠ ⊥ →
    ∃ l, dlookup s.frequency s.current_max = some l ∧
      s.current_max_count = l.length ∧ l ≠ [])

theorem LedgerInv_init (m : ℤ) : LedgerInv (Auction.init m) := by
  refine ⟨?_, ?_, fun _ => ⟨rfl, rfl⟩, fun h => absurd rfl h⟩ <;>
    simp [Auction.init, keysOf]

theorem LedgerInv_restart (s : Auction) : LedgerInv s.restart_auction := by
  refine ⟨?_, ?_, fun _ => ⟨rfl, rfl⟩, fun h => absurd rfl h⟩ <;>
    simp [Auction.restart_auction, keysOf]

theorem LedgerInv_place_bid (s : Auction) (b : String) (a : ℤ) (hInv : LedgerInv s) :
    LedgerInv (s.place_bid b a) := by
  obtain ⟨h1, h2, h3, h4⟩ := hInv
  by_cases hr : (a : WithBot ℤ) < s.min_bid
  · rw [place_bid_reject s b a hr]
    exact ⟨h1, h2, h3, h4⟩
  · have hma : s.min_bid ≤ (a : WithBot ℤ) := not_lt.mp hr
    by_cases hgt : s.current_max < (a : WithBot ℤ)
    · rw [place_bid_accept_gt s b a hr hgt]
      have hnotmem : (a : WithBot ℤ) ∉ keysOf s.frequency := fun hmem =>
        absurd hgt (not_lt.mpr (h2 _ hmem))
      have hnone : dlookup s.frequency (a : WithBot ℤ) = none :=
        (dlookup_eq_none_iff _ _).mpr hnotmem
      refine ⟨?_, ?_, ?_, ?_⟩
      · intro k hk
        rcases (mem_keysOf_appendBid _ _ _ _).mp hk with hk | rfl
        · exact h1 k hk
        · exact hma
      · intro k hk
        rcases (mem_keysOf_appendBid _ _ _ _).mp hk with hk | rfl
        · exact le_of_lt (lt_of_le_of_lt (h2 k hk) hgt)
        · exact le_refl _
      · intro hbot
        exact absurd hbot (WithBot.coe_ne_bot)
      · intro _
        refine ⟨[b], ?_, rfl, by simp⟩
        rw [dlookup_appendBid_self, hnone]
        rfl
    · by_cases heq : (a : WithBot ℤ) = s.current_max
      · rw [place_bid_accept_eq s b a hr hgt heq]
        have hne : s.current_max ≠ ⊥ := heq ▸ WithBot.coe_ne_bot
        obtain ⟨l, hl, hlen, hlne⟩ := h4 hne
        refine ⟨?_, ?_, fun hbot => absurd hbot hne, ?_⟩
        · intro k hk
          rcases (mem_keysOf_appendBid _ _ _ _).mp hk with hk | rfl
          · exact h1 k hk
          · exact hma
        · intro k hk
          rcases (mem_keysOf_appendBid _ _ _ _).mp hk with hk | rfl
          · exact h2 k hk
          · exact le_of_eq heq
        · intro _
          refine ⟨l ++ [b], ?_, by simp [hlen], by simp⟩
          have hla : dlookup s.frequency (a : WithBot ℤ) = some l := heq ▸ hl
          rw [← heq, dlookup_appendBid_self, hla]
          rfl
      · rw [place_bid_accept_lt s b a hr hgt heq]
        have hlt : (a : WithBot ℤ) < s.current_max :=
          lt_of_le_of_ne (not_lt.mp hgt) heq
        have hne : s.current_max ≠ ⊥ := by
          intro hbot
          rw [hbot] at hlt
          exact absurd hlt (not_lt_bot)
        obtain ⟨l, hl, hlen, hlne⟩ := h4 hne
        refine ⟨?_, ?_, fun hbot => absurd hbot hne, ?_⟩
        · intro k hk
          rcases (mem_keysOf_appendBid _ _ _ _).mp hk with hk | rfl
          · exact h1 k hk
          · exact hma
        · intro k hk
          rcases (mem_keysOf_appendBid _ _ _ _).mp hk with hk | rfl
          · exact h2 k hk
          · exact le_of_lt hlt
        · intro _
          refine ⟨l, ?_, hlen, hlne⟩
          rw [dlookup_appendBid_ne _ _ _ _ heq]
          exact hl

theorem ReachableSafe_LedgerInv (s : Auction) (h : ReachableSafe s) : LedgerInv s := by
  induction h with
  | init m => exact LedgerInv_init m
  | bid s b a _ ih => exact LedgerInv_place_bid s b a ih
  | close s t _ hne ih =>
      rw [close_auction_no_error s t hne]
      exact ih
  | restart s _ _ => exact LedgerInv_restart s

/-- In the winner branch, when the key is present the `defaultdict` read
does not mutate `frequency`, whatever the stored list is. -/
theorem close_auction_snd_of_mem (s : Auction) (t : Bool) (l : List String)
    (hlk : dlookup s.frequency s.current_max = some l) :
    (s.close_auction t).2 = s := by
  unfold Auction.close_auction
  by_cases hc : s.current_max_count = 1 ∨ t = true
  · rw [if_pos hc]
    simp only [dget_of_dlookup_some _ _ _ hlk]
    cases l <;> rfl
  · rw [if_neg hc]

example :
    ((Auction.init 10).processBids
      [("Bidder1", 15), ("Bidder2", 20), ("Bidder3", 20)]).current_max
      = ((20 : ℤ) : WithBot ℤ) := by decide

example :
    ((Auction.init 10).processBids
      [("Bidder1", 15), ("Bidder2", 20), ("Bidder3", 20)]).current_max_count
      = 2 := by decide

example :
    (((Auction.init 10).processBids
      [("Bidder1", 15), ("Bidder2", 20), ("Bidder3", 20)]).close_auction
        true).1 = Except.ok (some "Bidder2") := rfl

example :
    ((Auction.init 10).close_auction true).2.frequency
      = [((⊥ : WithBot ℤ), [])] := by decide

example :
    ((Auction.init 10).restart_auction).min_bid = (⊥ : WithBot ℤ) := by
  decide

/-- Claim C1: for every sequence of `place_bid` calls whose amounts are all
at or above the initial floor, after processing, `current_max` equals the
maximum of all accepted amounts (all bids are accepted here) and
`current_max_count` equals the number of accepted bids at that maximum. -/
theorem C1_running_max_and_count (m : ℤ) (bids : List (String × ℤ))
    (h : ∀ p ∈ bids, m ≤ p.2) :
    ((Auction.init m).processBids bids).current_max
        = listMax (bids.map (·.2)) ∧
    ((Auction.init m).processBids bids).current_max_count
        = (bids.map (·.2)).countP
            (fun a : ℤ => decide ((a : WithBot ℤ) = listMax (bids.map (·.2)))) :=
  processBids_spec m bids h

theorem C1_running_max_and_count_witness :
    (∀ p ∈ [("Bidder1", (15 : ℤ)), ("Bidder2", 20), ("Bidder3", 20)],
        (10 : ℤ) ≤ p.2) ∧
    (((Auction.init 10).processBids
        [("Bidder1", 15), ("Bidder2", 20), ("Bidder3", 20)]).current_max
      = listMax ([("Bidder1", (15 : ℤ)), ("Bidder2", 20), ("Bidder3", 20)].map (·.2)) ∧
     ((Auction.init 10).processBids
        [("Bidder1", 15), ("Bidder2", 20), ("Bidder3", 20)]).current_max_count
      = ([("Bidder1", (15 : ℤ)), ("Bidder2", 20), ("Bidder3", 20)].map (·.2)).countP
          (fun a : ℤ => decide ((a : WithBot ℤ)
            = listMax ([("Bidder1", (15 : ℤ)), ("Bidder2", 20), ("Bidder3", 20)].map (·.2))))) :=
  ⟨by decide, C1_running_max_and_count 10 _ (by decide)⟩

/-- Claim C2: when the key `current_max` holds the (insertion-ordered,
nonempty) bidder list `w :: rest` — which is the case in every state with
at least one accepted bid — `close_auction` returns the first-inserted
bidder `w` as winner whenever `current_max_count = 1` or the tie-breaker
flag is set, regardless of how many bidders tied, and leaves the state
unchanged. -/
theorem C2_close_winner_first_inserted (s : Auction) (t : Bool)
    (w : String) (rest : List String)
    (hlk : dlookup s.frequency s.current_max = some (w :: rest))
    (hc : s.current_max_count = 1 ∨ t = true) :
    s.close_auction t = (Except.ok (some w), s) := by
  unfold Auction.close_auction
  rw [if_pos hc]
  simp only [dget_of_dlookup_some _ _ _ hlk]

theorem C2_close_winner_first_inserted_witness :
    dlookup ((Auction.init 10).processBids
        [("Bidder1", 15), ("Bidder2", 20), ("Bidder3", 20)]).frequency
        ((Auction.init 10).processBids
        [("Bidder1", 15), ("Bidder2", 20), ("Bidder3", 20)]).current_max
      = some ("Bidder2" :: ["Bidder3"]) ∧
    (((Auction.init 10).processBids
        [("Bidder1", 15), ("Bidder2", 20), ("Bidder3", 20)]).current_max_count = 1
      ∨ true = true) ∧
    ((Auction.init 10).processBids
        [("Bidder1", 15), ("Bidder2", 20), ("Bidder3", 20)]).close_auction true
      = (Except.ok (some "Bidder2"),
         (Auction.init 10).processBids
        [("Bidder1", 15), ("Bidder2", 20), ("Bidder3", 20)]) :=
  ⟨by decide, Or.inr rfl,
    C2_close_winner_first_inserted _ true "Bidder2" ["Bidder3"] (by decide)
      (Or.inr rfl)⟩

/-- Claim C3: in every state with at least two bids tied at the maximum
(`current_max_count ≥ 2`, in particular at least one accepted bid) and the
tie-breaker flag unset, `close_auction` returns `None` and leaves the
whole state exactly unchanged. -/
theorem C3_close_tie_no_winner_unchanged (s : Auction)
    (_hset : s.current_max ≠ ⊥) (hc : 2 ≤ s.current_max_count) :
    s.close_auction false = (Except.ok none, s) := by
  unfold Auction.close_auction
  have hnc : ¬ (s.current_max_count = 1 ∨ false = true) := by
    simp only [Bool.false_eq_true, or_false]
    omega
  rw [if_neg hnc]

theorem C3_close_tie_no_winner_unchanged_witness :
    ((Auction.init 10).processBids
        [("Bidder2", 20), ("Bidder3", 20)]).current_max ≠ ⊥ ∧
    2 ≤ ((Auction.init 10).processBids
        [("Bidder2", 20), ("Bidder3", 20)]).current_max_count ∧
    ((Auction.init 10).processBids
        [("Bidder2", 20), ("Bidder3", 20)]).close_auction false
      = (Except.ok none,
         (Auction.init 10).processBids [("Bidder2", 20), ("Bidder3", 20)]) :=
  ⟨by decide, by decide,
    C3_close_tie_no_winner_unchanged _ (by decide) (by decide)⟩

/-- Claim C4: a bid strictly below the floor is rejected with no state
mutation at all: the state after the call is the state before it, so in
particular the amount is not added as a key of `frequency` and `min_bid`,
`current_max` and `current_max_count` are unchanged. -/
theorem C4_below_floor_rejected (s : Auction) (b : String) (a : ℤ)
    (h : (a : WithBot ℤ) < s.min_bid) :
    s.place_bid b a = s :=
  place_bid_reject s b a h

theorem C4_below_floor_rejected_witness :
    (((5 : ℤ) : WithBot ℤ) < (Auction.init 10).min_bid) ∧
    (Auction.init 10).place_bid "BidderY" 5 = Auction.init 10 :=
  ⟨by decide, C4_below_floor_rejected _ "BidderY" 5 (by decide)⟩

/-- Claim C5: after `restart_auction` on a state whose `current_max` is the
set value `v`, the floor is `v + 1`, `frequency` is empty, `current_max` is
unset, `current_max_count` is `0`, and a subsequent bid at the old maximum
`v` is rejected (the state is unchanged by it). -/
theorem C5_restart_resets (s : Auction) (v : ℤ)
    (h : s.current_max = (v : WithBot ℤ)) :
    s.restart_auction.min_bid = ((v + 1 : ℤ) : WithBot ℤ) ∧
    s.restart_auction.frequency = [] ∧
    s.restart_auction.current_max = ⊥ ∧
    s.restart_auction.current_max_count = 0 ∧
    ∀ b : String, s.restart_auction.place_bid b v = s.restart_auction := by
  have hmin : s.restart_auction.min_bid = ((v + 1 : ℤ) : WithBot ℤ) := by
    show s.current_max + 1 = ((v + 1 : ℤ) : WithBot ℤ)
    rw [h]
    push_cast
    rfl
  refine ⟨hmin, rfl, rfl, rfl, fun b => ?_⟩
  apply place_bid_reject
  rw [hmin]
  exact_mod_cast lt_add_one v

theorem C5_restart_resets_witness :
    ((Auction.init 10).place_bid "Bidder2" 20).current_max
      = ((20 : ℤ) : WithBot ℤ) ∧
    (((Auction.init 10).place_bid "Bidder2" 20).restart_auction.min_bid
        = ((20 + 1 : ℤ) : WithBot ℤ) ∧
      ((Auction.init 10).place_bid "Bidder2" 20).restart_auction.frequency = [] ∧
      ((Auction.init 10).place_bid "Bidder2" 20).restart_auction.current_max = ⊥ ∧
      ((Auction.init 10).place_bid "Bidder2" 20).restart_auction.current_max_count
        = 0 ∧
      ∀ b : String,
        ((Auction.init 10).place_bid "Bidder2" 20).restart_auction.place_bid b 20
          = ((Auction.init 10).place_bid "Bidder2" 20).restart_auction) :=
  ⟨by decide, C5_restart_resets _ 20 (by decide)⟩

/-- Claim C6 is false as stated: the state after calling `close_auction`
with the tie-breaker flag on a freshly constructed ledger is reachable
(the call raises, but the `defaultdict` read has already inserted the key
`⊥` into `frequency`), and that key violates "every key in `frequency` is
at or above the floor". -/
theorem C6_counterexample :
    Reachable ((Auction.init 10).close_auction true).2 ∧
    (⊥ : WithBot ℤ) ∈ keysOf ((Auction.init 10).close_auction true).2.frequency ∧
    ¬ ((Auction.init 10).close_auction true).2.min_bid ≤ (⊥ : WithBot ℤ) :=
  ⟨Reachable.close _ true (Reachable.init 10), by decide, by decide⟩

/-- Claim C6 (amended): in every state reachable by sequences of calls in
which `close_auction` never raises `IndexError`, every key of `frequency`
is at or above the floor, and whenever `current_max` is set it is a key of
`frequency` bounding all other keys (hence the maximum key present) whose
bidder list has length `current_max_count`. -/
theorem C6_invariant_safe_reachable (s : Auction) (h : ReachableSafe s) :
    (∀ k ∈ keysOf s.frequency, s.min_bid ≤ k) ∧
    (∀ v : ℤ, s.current_max = (v : WithBot ℤ) →
      ∃ l, dlookup s.frequency s.current_max = some l ∧
        s.current_max_count = l.length ∧
        s.current_max ∈ keysOf s.frequency ∧
        ∀ k ∈ keysOf s.frequency, k ≤ s.current_max) := by
  obtain ⟨h1, h2, _h3, h4⟩ := ReachableSafe_LedgerInv s h
  refine ⟨h1, ?_⟩
  intro v hv
  obtain ⟨l, hl, hlen, _hlne⟩ := h4 (by rw [hv]; exact WithBot.coe_ne_bot)
  have hmem : s.current_max ∈ keysOf s.frequency := by
    by_contra hm
    rw [(dlookup_eq_none_iff _ _).mpr hm] at hl
    exact Option.noConfusion hl
  exact ⟨l, hl, hlen, hmem, h2⟩

theorem C6_invariant_safe_reachable_witness :
    ReachableSafe ((Auction.init 10).place_bid "BidderX" 12) ∧
    ((∀ k ∈ keysOf ((Auction.init 10).place_bid "BidderX" 12).frequency,
        ((Auction.init 10).place_bid "BidderX" 12).min_bid ≤ k) ∧
     (∀ v : ℤ,
        ((Auction.init 10).place_bid "BidderX" 12).current_max = (v : WithBot ℤ) →
        ∃ l, dlookup ((Auction.init 10).place_bid "BidderX" 12).frequency
              ((Auction.init 10).place_bid "BidderX" 12).current_max = some l ∧
          ((Auction.init 10).place_bid "BidderX" 12).current_max_count = l.length ∧
          ((Auction.init 10).place_bid "BidderX" 12).current_max
            ∈ keysOf ((Auction.init 10).place_bid "BidderX" 12).frequency ∧
          ∀ k ∈ keysOf ((Auction.init 10).place_bid "BidderX" 12).frequency,
            k ≤ ((Auction.init 10).place_bid "BidderX" 12).current_max)) :=
  ⟨ReachableSafe.bid _ "BidderX" 12 (ReachableSafe.init 10),
   C6_invariant_safe_reachable _
     (ReachableSafe.bid _ "BidderX" 12 (ReachableSafe.init 10))⟩

/-- Claim C7 is false as stated: on a freshly constructed ledger with the
tie-breaker flag, `close_auction` mutates the state (the `defaultdict`
read inserts the key `⊥` before the indexing raises). -/
theorem C7_counterexample :
    ((Auction.init 10).close_auction true).2 ≠ Auction.init 10 := by decide

/-- Claim C7 (amended): on every state whose `frequency` contains the key
`current_max` — in particular every reachable state with at least one
accepted bid — `close_auction` is read-only, and calling it twice in a row
yields identical results. -/
theorem C7_close_readonly_idempotent (s : Auction) (t : Bool)
    (l : List String)
    (hlk : dlookup s.frequency s.current_max = some l) :
    (s.close_auction t).2 = s ∧
    (s.close_auction t).2.close_auction t = s.close_auction t := by
  have h2 := close_auction_snd_of_mem s t l hlk
  exact ⟨h2, by rw [h2]⟩

theorem C7_close_readonly_idempotent_witness :
    dlookup ((Auction.init 10).place_bid "BidderX" 12).frequency
        ((Auction.init 10).place_bid "BidderX" 12).current_max
      = some ["BidderX"] ∧
    ((((Auction.init 10).place_bid "BidderX" 12).close_auction false).2
        = (Auction.init 10).place_bid "BidderX" 12 ∧
      (((Auction.init 10).place_bid "BidderX" 12).close_auction false).2.close_auction
          false
        = ((Auction.init 10).place_bid "BidderX" 12).close_auction false) :=
  ⟨by decide, C7_close_readonly_idempotent _ false ["BidderX"] (by decide)⟩

/-- Claim C8 evaluated on the code: `restart_auction` on a ledger with no
accepted bid is not guarded and does not fail; it silently computes
`min_bid = current_max + 1` on the unset sentinel (`-inf + 1 = -inf`,
i.e. `⊥`), after which an arbitrarily negative bid is accepted. -/
theorem C8_restart_unguarded_eval :
    (Auction.init 10).restart_auction.min_bid = (⊥ : WithBot ℤ) ∧
    ((Auction.init 10).restart_auction.place_bid "Bidder1" (-1000000)).frequency
      = [(((-1000000 : ℤ) : WithBot ℤ), ["Bidder1"])] ∧
    (Auction.init 10).restart_auction.place_bid "Bidder1" (-1000000)
      ≠ (Auction.init 10).restart_auction := by decide

/-- Claim C9: on a ledger in which no bid has ever been accepted
(`frequency` empty, `current_max` at the unset sentinel,
`current_max_count = 0`), `close_auction` with the tie-breaker flag takes
the winner branch and indexes the first element of the empty bidder list at
the sentinel key, so the call fails (`IndexError`) instead of returning a
result. -/
theorem C9_close_no_bids_tiebreaker_fails (s : Auction)
    (hf : s.frequency = []) (_hm : s.current_max = ⊥)
    (_hc : s.current_max_count = 0) :
    (s.close_auction true).1 = Except.error () := by
  unfold Auction.close_auction
  rw [if_pos (Or.inr rfl), hf]
  rfl

theorem C9_close_no_bids_tiebreaker_fails_witness :
    (Auction.init 10).frequency = [] ∧
    (Auction.init 10).current_max = ⊥ ∧
    (Auction.init 10).current_max_count = 0 ∧
    ((Auction.init 10).close_auction true).1 = Except.error () :=
  ⟨rfl, rfl, rfl, C9_close_no_bids_tiebreaker_fails _ rfl rfl rfl⟩

/-- Claim C10: on a ledger in which no bid has ever been accepted
(`current_max` unset, `current_max_count = 0`), `close_auction` without the
tie-breaker flag returns `None` and leaves the state unchanged. -/
theorem C10_close_no_bids_returns_none (s : Auction)
    (_hm : s.current_max = ⊥) (hc : s.current_max_count = 0) :
    s.close_auction false = (Except.ok none, s) := by
  unfold Auction.close_auction
  have hnc : ¬ (s.current_max_count = 1 ∨ false = true) := by
    simp [hc]
  rw [if_neg hnc]

theorem C10_close_no_bids_returns_none_witness :
    (Auction.init 10).current_max = ⊥ ∧
    (Auction.init 10).current_max_count = 0 ∧
    (Auction.init 10).close_auction false = (Except.ok none, Auction.init 10) :=
  ⟨rfl, rfl, C10_close_no_bids_returns_none _ rfl rfl⟩
